import Mathlib

/-!
Shallow embedding of `orcatrjvis.py` (eljost/orcatrjvis): a post-processing
pipeline that extracts imaginary vibrational modes from ORCA output artifacts
(`.out` logs and `.hess` Hessian dumps), drives external tools to render one
movie per mode, and assembles `(fn, index, value, movie)` records into a
report.

Modelling conventions:
* strings are `List Char` (converted from Lean `String` via `.data` at the
  boundary);
* frequency values are exact rationals `ℚ` (Python parses them with `float`;
  only their sign and their identity through the pipeline matter here, so the
  decimal literals are modelled exactly);
* external effects (the `orca_pltvib` subprocess, the Jmol/convert renderers,
  the filesystem) are explicit inputs or explicit state: the standard output
  of `orca_pltvib` is passed in as a string, and the set of existing
  directories is passed as explicit state;
* fallible steps (`re.search` returning `None`, `IndexError`/`ValueError` on a
  malformed spectrum line) are modelled with `Option`.
-/

namespace Orcatrjvis

/-- Python/`re` ASCII whitespace: space, tab, newline, carriage return,
vertical tab (0x0b) and form feed (0x0c). -/
def isPySpace (c : Char) : Bool :=
  c = ' ' || c = '\t' || c = '\n' || c = '\r' ||
  c = Char.ofNat 11 || c = Char.ofNat 12

/-- ASCII decimal digit test, as used by the regex classes `\d` and by
Python `float` parsing. -/
def isDig (c : Char) : Bool :=
  48 ≤ c.toNat && c.toNat ≤ 57

/-- Numeric value of an ASCII digit character. -/
def digitVal (c : Char) : ℕ := c.toNat - 48

/-- Value of a big-endian list of ASCII digit characters. -/
def natOfDigits (l : List Char) : ℕ :=
  l.foldl (fun a c => 10 * a + digitVal c) 0

/-- Python `str.strip()` with no argument: remove leading and trailing
whitespace. -/
def pyStrip (l : List Char) : List Char :=
  ((l.dropWhile isPySpace).reverse.dropWhile isPySpace).reverse

/-- Python `str.split("\n")`: split on every newline, keeping empty
segments. -/
def splitNl : List Char → List (List Char)
  | [] => [[]]
  | c :: cs =>
    if c = '\n' then [] :: splitNl cs
    else
      match splitNl cs with
      | [] => [[c]]
      | s :: ss => (c :: s) :: ss

/-- First token of Python `str.split()` (no separator: split on whitespace
runs, ignoring leading and trailing whitespace); `none` models the
`IndexError` raised by `[0]` when the line holds no token. -/
def firstTok (l : List Char) : Option (List Char) :=
  let t := (l.dropWhile isPySpace).takeWhile (fun c => ¬ isPySpace c)
  if t = [] then none else some t

/-- Parse the optional exponent suffix of a Python float literal (`e`/`E`,
optional sign, digits): `some (expIsNegative, exponent)`; `none` on
trailing junk. -/
def expVal : List Char → Option (Bool × ℕ)
  | [] => some (false, 0)
  | e :: r =>
    if e = 'e' ∨ e = 'E' then
      let sr : Bool × List Char :=
        match r with
        | '-' :: rr => (true, rr)
        | '+' :: rr => (false, rr)
        | _ => (false, r)
      let ds := sr.2.takeWhile isDig
      if ds = [] ∨ sr.2.dropWhile isDig ≠ [] then none
      else some (sr.1, natOfDigits ds)
    else none

/-- Exact rational value of a decimal literal, from its parts: sign flag,
integer-part digits, fractional-part digits, exponent sign flag and
exponent. The arithmetic is kept in `ℤ`/`ℕ` with a single final `mkRat`. -/
def pyFloatVal (neg : Bool) (ip fp : List Char) (expNeg : Bool) (e : ℕ) : ℚ :=
  let mant : ℕ := natOfDigits ip * 10 ^ fp.length + natOfDigits fp
  let n : ℤ := if neg then -(mant : ℤ) else (mant : ℤ)
  if expNeg then mkRat n (10 ^ fp.length * 10 ^ e)
  else mkRat (n * 10 ^ e) (10 ^ fp.length)

/-- Python `float(token)` on a decimal literal: optional sign, integer part,
optional `.` and fractional part (at least one digit overall), optional
exponent. The value is the exact rational denoted by the literal; `none`
models the `ValueError` on malformed input. (Special forms such as `inf`,
`nan` or underscore separators do not occur in ORCA spectra and are not
modelled.) -/
def pyFloat (t : List Char) : Option ℚ :=
  let st : Bool × List Char :=
    match t with
    | '-' :: r => (true, r)
    | '+' :: r => (false, r)
    | _ => (false, t)
  let ip := st.2.takeWhile isDig
  let r1 := st.2.dropWhile isDig
  match r1 with
  | '.' :: r2 =>
    let fp := r2.takeWhile isDig
    let r3 := r2.dropWhile isDig
    if ip = [] ∧ fp = [] then none
    else (expVal r3).map (fun ex => pyFloatVal st.1 ip fp ex.1 ex.2)
  | _ =>
    if ip = [] then none
    else (expVal r1).map (fun ex => pyFloatVal st.1 ip [] ex.1 ex.2)

/-- One spectrum body line of `imgvibs_from_orca_hess`:
`float(line.strip().split()[0])`. -/
def parseFreqLine (line : List Char) : Option ℚ :=
  match firstTok (pyStrip line) with
  | none => none
  | some t => pyFloat t

/-- Boolean prefix test on character lists (a regex literal matching at the
current scan position). -/
def startsWith : List Char → List Char → Bool
  | [], _ => true
  | _ :: _, [] => false
  | p :: ps, c :: cs => p = c && startsWith ps cs

/-! ### The `$ir_spectrum` regex of `imgvibs_from_orca_hess`

`re.search(r"\$ir_spectrum\s*(\d+)\s*(.+?)\s*\$", hess, re.DOTALL)`,
modelled as a backtracking scan: at each position, match the literal, then
greedy `\s*`, then greedy `\d+` with backtracking, then greedy `\s*` with
backtracking, then the lazy `(.+?)` followed by `\s*\$`. -/

/-- The fixed literal prefix of the spectrum regex. -/
def irLit : List Char := ['$', 'i', 'r', '_', 's', 'p', 'e', 'c', 't', 'r', 'u', 'm']

/-- Lazy `(.+?)\s*\$`: the shortest non-empty body such that what follows
is whitespace and then a dollar sign. `acc` holds the body read so far,
reversed. -/
def bodyAux (acc : List Char) : List Char → Option (List Char)
  | [] => none
  | c :: cs =>
    if (cs.dropWhile isPySpace).head? = some '$' then some (c :: acc).reverse
    else bodyAux (c :: acc) cs

/-- Search for the lazy body group starting at the current position. -/
def bodySearch (l : List Char) : Option (List Char) := bodyAux [] l

/-- Backtracking of the greedy `\s*` between the mode count and the body:
try skipping `j` whitespace characters, longest first. -/
def irWsTry (numStr rest : List Char) : ℕ → Option (List Char × List Char)
  | 0 =>
    (bodySearch rest).map (fun b => (numStr, b))
  | j + 1 =>
    match bodySearch (rest.drop (j + 1)) with
    | some b => some (numStr, b)
    | none => irWsTry numStr rest j

/-- One attempt with a fixed number-group: greedy `\s*` (longest first,
then backtrack) followed by the lazy body group. -/
def irAttempt (numStr rest : List Char) : Option (List Char × List Char) :=
  irWsTry numStr rest (rest.takeWhile isPySpace).length

/-- Backtracking of the greedy `\d+`: try the first `k` digits as the
count group, longest first; at least one digit is required. -/
def irBacktrack (digs afterDigs : List Char) : ℕ → Option (List Char × List Char)
  | 0 => none
  | k + 1 =>
    match irAttempt (digs.take (k + 1)) (digs.drop (k + 1) ++ afterDigs) with
    | some r => some r
    | none => irBacktrack digs afterDigs k

/-- Match the part of the spectrum regex after the literal, starting right
after `$ir_spectrum`: greedy `\s*`, then the digit group with backtracking,
then the body. -/
def irMatchAfter (cs : List Char) : Option (List Char × List Char) :=
  let cs1 := cs.dropWhile isPySpace
  let digs := cs1.takeWhile isDig
  irBacktrack digs (cs1.dropWhile isDig) digs.length

/-- Model of `re.search` for the spectrum regex: scan positions left to
right and return the groups `(count, body)` of the first successful
match. -/
def irSearch : List Char → Option (List Char × List Char)
  | [] => none
  | c :: cs =>
    if startsWith irLit (c :: cs) then
      match irMatchAfter ((c :: cs).drop irLit.length) with
      | some r => some r
      | none => irSearch cs
    else irSearch cs

/-! ### The `creating: ` scan of `run_orca_pltvib`

`re.findall("creating: (.+)\n", stdout)`: a left-to-right non-overlapping
scan; each match consumes the literal, a non-empty greedy run of
non-newline characters, and the newline. -/

/-- The literal of the `creating:` announcement regex. -/
def creatingLit : List Char := ['c', 'r', 'e', 'a', 't', 'i', 'n', 'g', ':', ' ']

/-- Split at the first newline: `some (before, after)` when the list
contains a newline. -/
def takeToNl : List Char → Option (List Char × List Char)
  | [] => none
  | c :: cs =>
    if c = '\n' then some ([], cs)
    else
      match takeToNl cs with
      | none => none
      | some p => some (c :: p.1, p.2)

theorem takeToNl_length : ∀ (l a b : List Char), takeToNl l = some (a, b) → b.length < l.length := by
  intro l
  induction l with
  | nil => intro a b h; simp [takeToNl] at h
  | cons c cs ih =>
    intro a b h
    simp only [takeToNl] at h
    by_cases hc : c = '\n'
    · rw [if_pos hc] at h
      simp only [Option.some.injEq, Prod.mk.injEq] at h
      obtain ⟨-, h2⟩ := h
      subst h2
      have hl : (c :: cs).length = cs.length + 1 := rfl
      omega
    · rw [if_neg hc] at h
      rcases hp : takeToNl cs with _ | p
      · rw [hp] at h; simp at h
      · rw [hp] at h
        simp only [Option.some.injEq, Prod.mk.injEq] at h
        obtain ⟨-, h2⟩ := h
        subst h2
        have := ih p.1 p.2 (by rw [hp])
        have hl : (c :: cs).length = cs.length + 1 := rfl
        omega

/-- Fuelled scan of `re.findall("creating: (.+)\n", stdout)`: scan for the
literal; on a match with a non-empty capture terminated by a newline, emit
the capture and resume after the newline; otherwise advance one character.
The fuel only bounds recursion depth (each step consumes at least one
character), keeping the definition kernel-computable. -/
def findallCreatingF : ℕ → List Char → List (List Char)
  | 0, _ => []
  | _, [] => []
  | fuel + 1, c :: cs =>
    if startsWith creatingLit (c :: cs) then
      match takeToNl ((c :: cs).drop creatingLit.length) with
      | some p =>
        if p.1 = [] then findallCreatingF fuel cs
        else p.1 :: findallCreatingF fuel p.2
      | none => findallCreatingF fuel cs
    else findallCreatingF fuel cs

/-- Model of `re.findall("creating: (.+)\n", stdout)`. -/
def findallCreating (l : List Char) : List (List Char) := findallCreatingF l.length l

/-! ### Path computations (`os.path` on POSIX) -/

/-- Model of `os.path.split`: split at the last slash; the head keeps no
trailing slashes unless it consists only of slashes. -/
def osSplit (p : List Char) : List Char × List Char :=
  (if (p.reverse.dropWhile (fun c => c ≠ '/')).dropWhile (fun c => c = '/') = [] ∧
      p.reverse.dropWhile (fun c => c ≠ '/') ≠ []
   then (p.reverse.dropWhile (fun c => c ≠ '/')).reverse
   else ((p.reverse.dropWhile (fun c => c ≠ '/')).dropWhile (fun c => c = '/')).reverse,
   (p.reverse.takeWhile (fun c => c ≠ '/')).reverse)

/-- Model of the two-argument `os.path.flatten` on POSIX. -/
def osJoin (a b : List Char) : List Char :=
  if b.head? = some '/' then b
  else if a = [] ∨ a.getLast? = some '/' then a ++ b
  else a ++ '/' :: b

/-- Fuelled decimal-digit rendering of a positive natural number (most
significant digit first); the fuel only bounds recursion depth. -/
def natToCharsF : ℕ → ℕ → List Char
  | 0, _ => []
  | fuel + 1, n =>
    if n = 0 then []
    else natToCharsF fuel (n / 10) ++ [Char.ofNat (48 + n % 10)]

/-- Decimal rendering of a natural number, as Python `str(i)`. -/
def natToChars (n : ℕ) : List Char :=
  if n = 0 then ['0'] else natToCharsF n n

/-- Python `str.replace(".", "-")` used on the Hessian file name. -/
def dotToDash (l : List Char) : List Char :=
  l.map (fun c => if c = '.' then '-' else c)

/-- The per-trajectory output directory of `movie_from_trajectory`:
`os.path.flatten(head, movie_base_fn + trj_dir_suf + trj_ind)` where `head`
is the directory part of the trajectory path. -/
def trjDirOf (trj_fn movie_base_fn trj_ind trj_dir_suf : List Char) : List Char :=
  osJoin (osSplit trj_fn).1 (movie_base_fn ++ trj_dir_suf ++ trj_ind)

/-- The movie path returned by `movie_from_trajectory`:
`os.path.flatten(trj_dir, movie_base_fn + trj_ind + ".gif")`. -/
def movieFnOf (trj_fn movie_base_fn trj_ind trj_dir_suf : List Char) : List Char :=
  osJoin (trjDirOf trj_fn movie_base_fn trj_ind trj_dir_suf)
         (movie_base_fn ++ trj_ind ++ ['.', 'g', 'i', 'f'])

/-! ### Data model and alignment assembler -/

/-- The `ImgVib` namedtuple: one result record binding the artifact path,
the mode index, the frequency value and the rendered movie path. -/
structure ImgVib where
  fn : List Char
  index : ℕ
  value : ℚ
  movie : List Char
deriving DecidableEq

/-- Python `zip` over three lists: truncates to the shortest input. -/
def zip3 {α β γ : Type} : List α → List β → List γ → List (α × β × γ)
  | a :: as, b :: bs, c :: cs => (a, b, c) :: zip3 as bs cs
  | _, _, _ => []

/-- The alignment assembler shared by both pipelines: the comprehension
`[ImgVib(fn, index, value, movie) for index, value, movie in zip(...)]`. -/
def mkImgVibs (fn : List Char) (indices : List ℕ) (values : List ℚ)
    (movies : List (List Char)) : List ImgVib :=
  (zip3 indices values movies).map (fun t => ⟨fn, t.1, t.2.1, t.2.2⟩)

/-- String of the base name passed for imaginary-vibration movies. -/
def imgvibBase : List Char := ['i', 'm', 'g', 'v', 'i', 'b']

/-- The fixed offset of `imgvibs_from_orca_log`: for a non-linear molecule
the first imaginary frequency appears at mode index 6. -/
def logVibOffset : ℕ := 6

/-- Model of `imgvibs_from_orca_log`. The external `Orca` log parser is a
black-box collaborator, so its imaginary-frequency list `imgvibfreqs` is an
input; `pltvibOut` is the standard output of the `orca_pltvib` call. -/
def imgvibs_from_orca_log (orca_log_fn : List Char) (imgvibfreqs : List ℚ)
    (pltvibOut : List Char) : List ImgVib :=
  let index_range := List.range' logVibOffset imgvibfreqs.length
  let trj_fns := findallCreating pltvibOut
  let movie_fns := (trj_fns.zip index_range).map
    (fun t => movieFnOf t.1 imgvibBase (natToChars t.2) [])
  mkImgVibs orca_log_fn index_range imgvibfreqs movie_fns

/-- Model of `imgvibs_from_orca_hess`: locate the `$ir_spectrum` block in
the Hessian text, parse the leading numeric field of each body line, keep
the strictly negative ones with their zero-based positions, and assemble
records with the movie paths derived from the `orca_pltvib` trajectories.
`none` models an uncaught exception (failed `re.search` or a malformed
body line). -/
def imgvibs_from_orca_hess (hess_fn hessText pltvibOut : List Char) :
    Option (List ImgVib) :=
  match irSearch hessText with
  | none => none
  | some g =>
    let ir_spectrum_lines := splitNl (pyStrip g.2)
    match ir_spectrum_lines.mapM parseFreqLine with
    | none => none
    | some allvibs =>
      let imgvib_indices := (allvibs.enum.filter (fun p => decide (p.2 < 0))).map Prod.fst
      let imgvibs := imgvib_indices.map (fun i => allvibs.getD i 0)
      let trj_fns := findallCreating pltvibOut
      let trj_dir_suf := '_' :: (osSplit (dotToDash hess_fn)).2
      let movie_fns := (trj_fns.zip imgvib_indices).map
        (fun t => movieFnOf t.1 imgvibBase (natToChars t.2) trj_dir_suf)
      some (mkImgVibs hess_fn imgvib_indices imgvibs movie_fns)

/-- The `--hess` branch of `run`: build the artifact-to-records mapping for
every Hessian artifact; a failure on any artifact aborts the whole run.
Each artifact is given as `(hess_fn, hessText, pltvibOut)`. -/
def run_hess_all (artifacts : List (List Char × List Char × List Char)) :
    Option (List (List Char × List ImgVib)) :=
  artifacts.mapM (fun t => (imgvibs_from_orca_hess t.1 t.2.1 t.2.2).map (fun r => (t.1, r)))

/-! ### The `orca_pltvib` invocation -/

/-- Whitespace split of Python `str.split()` (full token list); `acc` holds
the current token reversed. -/
def splitWsAux (acc : List Char) : List Char → List (List Char)
  | [] => if acc = [] then [] else [acc.reverse]
  | c :: cs =>
    if isPySpace c then
      if acc = [] then splitWsAux [] cs else acc.reverse :: splitWsAux [] cs
    else splitWsAux (c :: acc) cs

/-- Python `str.split()` with no separator. -/
def pySplitWs (l : List Char) : List (List Char) := splitWsAux [] l

/-- Python `" ".flatten(strs)`. -/
def joinSp : List (List Char) → List Char
  | [] => []
  | [x] => x
  | x :: y :: r => x ++ ' ' :: joinSp (y :: r)

/-- Name of the external mode-to-trajectory tool. -/
def pltvibTool : List Char := ['o', 'r', 'c', 'a', '_', 'p', 'l', 't', 'v', 'i', 'b']

/-- The argument vector of `run_orca_pltvib`:
`"orca_pltvib {} {}".format(fn, " ".flatten(str_indices)).split()`. -/
def pltvibCmd (fn : List Char) (vib_indices : List ℕ) : List (List Char) :=
  pySplitWs (pltvibTool ++ ' ' :: fn ++ ' ' :: joinSp (vib_indices.map natToChars))

/-! ### Report ordering (`natsorted`) -/

/-- One chunk of a natural-sort key: a run of non-digits or the numeric
value of a run of digits. -/
inductive NChunk where
  | str : List Char → NChunk
  | num : ℕ → NChunk
deriving DecidableEq

theorem length_dropWhile_le {α : Type} (p : α → Bool) (l : List α) :
    (l.dropWhile p).length ≤ l.length := by
  induction l with
  | nil => simp [List.dropWhile]
  | cons c cs ih =>
    by_cases h : p c
    · simp [List.dropWhile, h]; omega
    · simp [List.dropWhile, h]

/-- Fuelled split of a name into maximal digit and non-digit runs; digit
runs carry their numeric value. The fuel only bounds recursion depth. -/
def natChunksF : ℕ → List Char → List NChunk
  | 0, _ => []
  | fuel + 1, l =>
    match l with
    | [] => []
    | c :: cs =>
      if isDig c then
        NChunk.num (natOfDigits (c :: cs.takeWhile isDig)) ::
          natChunksF fuel (cs.dropWhile isDig)
      else
        NChunk.str (c :: cs.takeWhile (fun d => ¬ isDig d)) ::
          natChunksF fuel (cs.dropWhile (fun d => ¬ isDig d))

/-- Split a name into maximal digit and non-digit runs. -/
def natChunks (l : List Char) : List NChunk := natChunksF l.length l

/-- The natural-sort key: chunks, aligned so that every key starts with a
(possibly empty) string chunk, as the `natsort` library does. -/
def natKey (l : List Char) : List NChunk :=
  match l.head? with
  | some c => if isDig c then NChunk.str [] :: natChunks l else natChunks l
  | none => natChunks l

/-- Code-point order on characters. -/
def chLt (a b : Char) : Bool := a.toNat < b.toNat

/-- Lexicographic order on character lists (Python string comparison). -/
def strLt : List Char → List Char → Bool
  | [], [] => false
  | [], _ :: _ => true
  | _ :: _, [] => false
  | a :: as, b :: bs => if a = b then strLt as bs else chLt a b

/-- Order on key chunks; a number never meets a string in aligned keys. -/
def chunkLt : NChunk → NChunk → Bool
  | NChunk.str a, NChunk.str b => strLt a b
  | NChunk.num a, NChunk.num b => decide (a < b)
  | NChunk.num _, NChunk.str _ => true
  | NChunk.str _, NChunk.num _ => false

/-- Lexicographic order on chunk lists (Python tuple comparison). -/
def keyLt : List NChunk → List NChunk → Bool
  | [], [] => false
  | [], _ :: _ => true
  | _ :: _, [] => false
  | a :: as, b :: bs => if a = b then keyLt as bs else chunkLt a b

/-- The natural order on names used by `natsorted`. -/
def natLt (a b : List Char) : Bool := keyLt (natKey a) (natKey b)

/-- Stable insertion of a name into an already naturally-sorted list. -/
def natInsert (x : List Char) : List (List Char) → List (List Char)
  | [] => [x]
  | y :: ys => if natLt y x then y :: natInsert x ys else x :: y :: ys

/-- Model of `natsorted`: a stable sort by the natural key. -/
def natsorted : List (List Char) → List (List Char)
  | [] => []
  | x :: xs => natInsert x (natsorted xs)

/-- Model of `create_imgvib_report`: iterate the artifact paths in natural
order and emit, for each, its records unchanged (the `OrderedDict` built
from the naturally sorted keys). -/
def create_imgvib_report (d : List (List Char × List ImgVib)) :
    List (List Char × List ImgVib) :=
  (natsorted (d.map Prod.fst)).map (fun k => (k, (d.lookup k).getD []))

/-! ### Directory creation (`movie_from_trajectory` side effects)

The filesystem is modelled as the list of existing directories. -/

/-- Raw `os.mkdir`: raises `FileExistsError` when the directory exists. -/
def mkdirRaw (dirs : List (List Char)) (d : List Char) :
    Except (List Char) (List (List Char)) :=
  if d ∈ dirs then Except.error ['F', 'E', 'E', 'x'] else Except.ok (dirs ++ [d])

/-- The `try: os.mkdir(...) except FileExistsError: pass` of
`movie_from_trajectory`. -/
def ensureDir (dirs : List (List Char)) (d : List Char) : List (List Char) :=
  match mkdirRaw dirs d with
  | Except.error _ => dirs
  | Except.ok ds => ds

/-- State-passing model of `movie_from_trajectory`: create (or reuse) the
per-trajectory directory and return the new directory state together with
the movie path. -/
def movie_from_trajectory (dirs : List (List Char))
    (trj_fn movie_base_fn trj_ind trj_dir_suf : List Char) :
    List (List Char) × List Char :=
  (ensureDir dirs (trjDirOf trj_fn movie_base_fn trj_ind trj_dir_suf),
   movieFnOf trj_fn movie_base_fn trj_ind trj_dir_suf)

/-! ### Concrete inputs used by witnesses -/

/-- Concrete artifact path for witnesses. -/
def wfn : List Char := ['r', 'u', 'n', '1', '.', 'o', 'u', 't']

/-- Concrete movie path for witnesses. -/
def wma : List Char := ['a', '.', 'g', 'i', 'f']

/-- Concrete movie path for witnesses. -/
def wmb : List Char := ['b', '.', 'g', 'i', 'f']

/-- Concrete `orca_pltvib` standard output announcing two trajectories. -/
def wout2 : List Char := ("creating: a.trj\ncreating: b.trj\n").data

/-! ### Helper lemmas on the assembler -/

theorem zip3_length {α β γ : Type} : ∀ (a : List α) (b : List β) (c : List γ),
    (zip3 a b c).length = min a.length (min b.length c.length) := by
  intro a
  induction a with
  | nil => intro b c; cases b <;> cases c <;> simp [zip3]
  | cons x xs ih =>
    intro b c
    cases b with
    | nil => simp [zip3]
    | cons y ys =>
      cases c with
      | nil => simp [zip3]
      | cons z zs =>
        simp [zip3, ih ys zs]
        omega

theorem mkImgVibs_length (fn : List Char) (i : List ℕ) (v : List ℚ) (m : List (List Char)) :
    (mkImgVibs fn i v m).length = min i.length (min v.length m.length) := by
  simp [mkImgVibs, zip3_length]

theorem mkImgVibs_proj (fn : List Char) : ∀ (i : List ℕ) (v : List ℚ) (m : List (List Char)),
    (mkImgVibs fn i v m).map (fun r => (r.index, r.value)) = (i.zip v).take m.length := by
  intro i
  induction i with
  | nil => intro v m; cases v <;> cases m <;> simp [mkImgVibs, zip3]
  | cons x xs ih =>
    intro v m
    cases v with
    | nil => cases m <;> simp [mkImgVibs, zip3]
    | cons y ys =>
      cases m with
      | nil => simp [mkImgVibs, zip3]
      | cons z zs =>
        have h := ih ys zs
        simp only [mkImgVibs, zip3, List.map_cons, List.length_cons, List.zip_cons_cons,
          List.take_succ_cons] at h ⊢
        rw [h]

theorem zip3_get {α β γ : Type} : ∀ (a : List α) (b : List β) (cl : List γ) (k : ℕ),
    k < a.length → k < b.length → k < cl.length →
    ∃ x y z, a[k]? = some x ∧ b[k]? = some y ∧ cl[k]? = some z ∧
      (zip3 a b cl)[k]? = some (x, y, z) := by
  intro a
  induction a with
  | nil => intro b cl k h; simp at h
  | cons x xs ih =>
    intro b cl k ha hb hc
    cases b with
    | nil => simp at hb
    | cons y ys =>
      cases cl with
      | nil => simp at hc
      | cons z zs =>
        cases k with
        | zero => exact ⟨x, y, z, by simp [zip3]⟩
        | succ k =>
          simp only [List.length_cons, Nat.succ_lt_succ_iff] at ha hb hc
          obtain ⟨x0, y0, z0, h1, h2, h3, h4⟩ := ih ys zs k ha hb hc
          exact ⟨x0, y0, z0, by simpa [zip3] using ⟨h1, h2, h3, h4⟩⟩

/-! ### Claims about the alignment assembler and the log pipeline -/

/-- C3: for equal-length parallel sequences of mode indices, frequency
values and movie paths, the assembler yields one record per position: the
output length is the common input length and the k-th record carries the
k-th index, value and movie path, tagged with the artifact path, in input
order (the output is literally the positional zip: no deduplication and no
sorting can occur). -/
theorem assembler_positional (fn : List Char) (idxs : List ℕ) (vals : List ℚ)
    (movs : List (List Char)) (h1 : idxs.length = vals.length)
    (h2 : vals.length = movs.length) :
    (mkImgVibs fn idxs vals movs).length = idxs.length ∧
    ∀ k, k < idxs.length →
      ∃ i v m, idxs[k]? = some i ∧ vals[k]? = some v ∧ movs[k]? = some m ∧
        (mkImgVibs fn idxs vals movs)[k]? = some ⟨fn, i, v, m⟩ := by
  constructor
  · rw [mkImgVibs_length]; omega
  · intro k hk
    obtain ⟨i, v, m, hi, hv, hm, hz⟩ :=
      zip3_get idxs vals movs k hk (by omega) (by omega)
    refine ⟨i, v, m, hi, hv, hm, ?_⟩
    simp [mkImgVibs, List.getElem?_map, hz]

/-- C3 witness at concrete inputs. -/
theorem assembler_positional_witness :
    (mkImgVibs wfn [4, 7] [mkRat (-1) 2, mkRat 3 1] [wma, wmb]).length = 2 ∧
    ∀ k, k < 2 →
      ∃ i v m, ([4, 7] : List ℕ)[k]? = some i ∧
        ([mkRat (-1) 2, mkRat 3 1] : List ℚ)[k]? = some v ∧
        ([wma, wmb] : List (List Char))[k]? = some m ∧
        (mkImgVibs wfn [4, 7] [mkRat (-1) 2, mkRat 3 1] [wma, wmb])[k]? = some ⟨wfn, i, v, m⟩ := by
  have h := assembler_positional wfn [4, 7] [mkRat (-1) 2, mkRat 3 1] [wma, wmb]
    (by simp) (by simp)
  simpa using h

/-- C2: for a log-derived artifact with `n` imaginary frequencies (and the
external tool announcing at least `n` trajectories), the mode indices
assigned are exactly `6, 7, …, 6+n-1`, paired in order with the parsed
imaginary-frequency values. -/
theorem log_indices_contiguous_from_six (fn : List Char) (imgvibfreqs : List ℚ)
    (pltvibOut : List Char)
    (h : imgvibfreqs.length ≤ (findallCreating pltvibOut).length) :
    (imgvibs_from_orca_log fn imgvibfreqs pltvibOut).map (fun r => (r.index, r.value)) =
      (List.range' 6 imgvibfreqs.length).zip imgvibfreqs := by
  unfold imgvibs_from_orca_log
  rw [mkImgVibs_proj]
  rw [List.take_of_length_le]
  · rfl
  · simp only [List.length_zip, List.length_map, List.length_range', logVibOffset]
    omega

/-- C2 witness at concrete inputs. -/
theorem log_indices_contiguous_from_six_witness :
    (imgvibs_from_orca_log wfn [mkRat (-3) 2, mkRat (-5) 1] wout2).map
        (fun r => (r.index, r.value)) =
      (List.range' 6 2).zip [mkRat (-3) 2, mkRat (-5) 1] := by
  have h := log_indices_contiguous_from_six wfn [mkRat (-3) 2, mkRat (-5) 1] wout2 (by decide)
  simpa using h

/-! ### Claims about the Hessian pipeline -/

theorem zip_map_fst_self {β : Type} (f : ℕ → β) :
    ∀ (l : List (ℕ × β)), (∀ p ∈ l, f p.1 = p.2) →
      (l.map Prod.fst).zip ((l.map Prod.fst).map f) = l := by
  intro l
  induction l with
  | nil => intro h; simp
  | cons p ps ih =>
    intro h
    simp only [List.map_cons, List.zip_cons_cons]
    rw [h p (by simp), ih (fun q hq => h q (by simp [hq]))]

theorem getD_eq_of_mem_enum {β : Type} [Inhabited β] {l : List β} {p : ℕ × β}
    (h : p ∈ l.enum) (d : β) : l.getD p.1 d = p.2 := by
  rw [List.getD_eq_getElem?_getD, List.mem_enum_iff_getElem?.mp h]
  rfl

/-- The zip of the Hessian pipeline's index list with its value list
reassembles exactly the negative entries of the enumerated spectrum. -/
theorem hess_zip_indices_values (allvibs : List ℚ) :
    (((allvibs.enum.filter (fun p => decide (p.2 < 0))).map Prod.fst).zip
      (((allvibs.enum.filter (fun p => decide (p.2 < 0))).map Prod.fst).map
        (fun i => allvibs.getD i 0))) =
      allvibs.enum.filter (fun p => decide (p.2 < 0)) := by
  apply zip_map_fst_self
  intro p hp
  exact getD_eq_of_mem_enum (List.mem_of_mem_filter hp) 0

/-- C1: for a Hessian artifact whose spectrum block parses (and with the
external tool announcing at least as many trajectories as there are
negative modes), the pipeline returns exactly the `(index, value)` pairs
whose value is strictly negative, the index being the zero-based position
of the line in the spectrum block, in ascending index order; non-negative
values never appear. -/
theorem hess_exactly_negative_modes (hess_fn hessText pltvibOut : List Char)
    (g : List Char × List Char) (allvibs : List ℚ)
    (hsearch : irSearch hessText = some g)
    (hparse : (splitNl (pyStrip g.2)).mapM parseFreqLine = some allvibs)
    (hlen : ((allvibs.enum.filter (fun p => decide (p.2 < 0))).map Prod.fst).length ≤
      (findallCreating pltvibOut).length) :
    ∃ l, imgvibs_from_orca_hess hess_fn hessText pltvibOut = some l ∧
      l.map (fun r => (r.index, r.value)) =
        allvibs.enum.filter (fun p => decide (p.2 < 0)) := by
  simp only [imgvibs_from_orca_hess, hsearch, hparse]
  refine ⟨_, rfl, ?_⟩
  rw [mkImgVibs_proj]
  rw [List.take_of_length_le]
  · exact hess_zip_indices_values allvibs
  · simp only [List.length_zip, List.length_map]
    simp only [List.length_map] at hlen
    omega

/-- Concrete Hessian text for witnesses: the spectrum of the end-to-end
scenario in the spec. -/
def whessTxt : List Char :=
  ("$ir_spectrum\n4\n  -120.5  1.0\n  50.2  0.0\n  -30.1  0.0\n  200.0  0.0\n$end\n").data

/-- The spectrum body group the regex extracts from `whessTxt`. -/
def wbody : List Char :=
  ("-120.5  1.0\n  50.2  0.0\n  -30.1  0.0\n  200.0  0.0").data

/-- The parsed spectrum of `whessTxt`. -/
def wvibs : List ℚ := [mkRat (-1205) 10, mkRat 502 10, mkRat (-301) 10, mkRat 2000 10]

/-- C1 witness: on the spec's end-to-end spectrum
`[-120.5, 50.2, -30.1, 200.0]` the pipeline yields exactly indices 0 and 2
with values -120.5 and -30.1. -/
theorem hess_exactly_negative_modes_witness :
    ∃ l, imgvibs_from_orca_hess wfn whessTxt wout2 = some l ∧
      l.map (fun r => (r.index, r.value)) =
        [(0, mkRat (-1205) 10), (2, mkRat (-301) 10)] := by
  obtain ⟨l, h1, h2⟩ :=
    hess_exactly_negative_modes wfn whessTxt wout2 (['4'], wbody) wvibs
      (by decide) (by decide) (by decide)
  exact ⟨l, h1, h2.trans (by decide)⟩

theorem mapM_eq_none_of_mem {α β : Type} (f : α → Option β) :
    ∀ (l : List α) (x : α), x ∈ l → f x = none → l.mapM f = none := by
  intro l
  induction l with
  | nil => intro x hx; simp at hx
  | cons a as ih =>
    intro x hx hfx
    rw [List.mapM_cons]
    rcases List.mem_cons.mp hx with hx | hx
    · subst hx
      rw [hfx]
      rfl
    · rcases hfa : f a with _ | v
      · rfl
      · rw [ih x hx hfx]
        rfl

/-- Concrete Hessian text with no spectrum block, for witnesses. -/
def wnoblock : List Char := ("$orca_hessian_file\n$act_atom\n  0\n$end\n").data

/-- C7: if the spectrum block of a Hessian artifact does not match, the
pipeline propagates the failure for that artifact — it never substitutes a
default or an empty result — and the whole `--hess` run aborts regardless
of the other artifacts. -/
theorem hess_malformed_aborts_run (hess_fn hessText pltvibOut : List Char)
    (h : irSearch hessText = none) :
    imgvibs_from_orca_hess hess_fn hessText pltvibOut = none ∧
    ∀ pre post, run_hess_all (pre ++ (hess_fn, hessText, pltvibOut) :: post) = none := by
  have h1 : imgvibs_from_orca_hess hess_fn hessText pltvibOut = none := by
    simp [imgvibs_from_orca_hess, h]
  refine ⟨h1, ?_⟩
  intro pre post
  apply mapM_eq_none_of_mem
  · exact List.mem_append_right _ (List.mem_cons_self _ _)
  · simp [h1]

/-- C7 witness: a Hessian artifact with no spectrum block is fatal and
aborts a run that also holds a well-formed artifact. -/
theorem hess_malformed_aborts_run_witness :
    imgvibs_from_orca_hess wfn wnoblock wout2 = none ∧
    run_hess_all [(wfn, whessTxt, wout2), (wfn, wnoblock, wout2)] = none := by
  have h := hess_malformed_aborts_run wfn wnoblock wout2 (by decide)
  exact ⟨h.1, h.2 [(wfn, whessTxt, wout2)] []⟩

/-- Standard output of an `orca_pltvib` run announcing a single
trajectory, for witnesses. -/
def wout1 : List Char := ("creating: a.trj\n").data

/-- C10: when the external tool announces fewer trajectories than the
number of requested mode indices, neither pipeline raises an error: the
positional zips silently truncate, so the assembled records cover only a
prefix of the imaginary modes and the mismatch goes undetected. -/
theorem tool_undercount_silently_truncates :
    (∀ hess_fn hessText pltvibOut g allvibs,
      irSearch hessText = some g →
      (splitNl (pyStrip g.2)).mapM parseFreqLine = some allvibs →
      (findallCreating pltvibOut).length ≤
        ((allvibs.enum.filter (fun p => decide (p.2 < 0))).map Prod.fst).length →
      ∃ l, imgvibs_from_orca_hess hess_fn hessText pltvibOut = some l ∧
        l.length = (findallCreating pltvibOut).length ∧
        l.map (fun r => (r.index, r.value)) =
          (allvibs.enum.filter (fun p => decide (p.2 < 0))).take
            (findallCreating pltvibOut).length) ∧
    (∀ fn freqs pltvibOut,
      (findallCreating pltvibOut).length ≤ freqs.length →
      (imgvibs_from_orca_log fn freqs pltvibOut).length =
        (findallCreating pltvibOut).length ∧
      (imgvibs_from_orca_log fn freqs pltvibOut).map (fun r => (r.index, r.value)) =
        ((List.range' 6 freqs.length).zip freqs).take
          (findallCreating pltvibOut).length) := by
  constructor
  · intro hess_fn hessText pltvibOut g allvibs hs hp hlen
    simp only [imgvibs_from_orca_hess, hs, hp]
    simp only [List.length_map] at hlen
    refine ⟨_, rfl, ?_, ?_⟩
    · rw [mkImgVibs_length]
      simp only [List.length_map, List.length_zip]
      omega
    · rw [mkImgVibs_proj, hess_zip_indices_values]
      simp only [List.length_map, List.length_zip]
      rw [Nat.min_eq_left hlen]
  · intro fn freqs pltvibOut hlen
    constructor
    · unfold imgvibs_from_orca_log
      rw [mkImgVibs_length]
      simp only [List.length_map, List.length_zip, List.length_range', logVibOffset]
      omega
    · unfold imgvibs_from_orca_log
      rw [mkImgVibs_proj]
      simp only [List.length_map, List.length_zip, List.length_range', logVibOffset]
      rw [Nat.min_eq_left hlen]

/-- C10 witness: on the end-to-end spectrum with two negative modes but a
tool announcing a single trajectory, both pipelines silently truncate to
one record. -/
theorem tool_undercount_silently_truncates_witness :
    (∃ l, imgvibs_from_orca_hess wfn whessTxt wout1 = some l ∧
      l.length = (findallCreating wout1).length ∧
      l.map (fun r => (r.index, r.value)) =
        (wvibs.enum.filter (fun p => decide (p.2 < 0))).take
          (findallCreating wout1).length) ∧
    ((imgvibs_from_orca_log wfn [mkRat (-3) 2, mkRat (-5) 1] wout1).length =
        (findallCreating wout1).length ∧
      (imgvibs_from_orca_log wfn [mkRat (-3) 2, mkRat (-5) 1] wout1).map
          (fun r => (r.index, r.value)) =
        ((List.range' 6 2).zip [mkRat (-3) 2, mkRat (-5) 1]).take
          (findallCreating wout1).length) := by
  have h := tool_undercount_silently_truncates
  refine ⟨h.1 wfn whessTxt wout1 (['4'], wbody) wvibs (by decide) (by decide) (by decide), ?_⟩
  have h2 := h.2 wfn [mkRat (-3) 2, mkRat (-5) 1] wout1 (by decide)
  simpa using h2

/-! ### Claims about `movie_from_trajectory` paths and directories -/

theorem takeWhile_append_all {α : Type} {p : α → Bool} :
    ∀ {x : List α} (y : List α), (∀ c ∈ x, p c) →
      (x ++ y).takeWhile p = x ++ y.takeWhile p := by
  intro x
  induction x with
  | nil => intro y h; simp
  | cons c cs ih =>
    intro y h
    have hc : p c := h c (by simp)
    simp only [List.cons_append, List.takeWhile_cons, hc]
    rw [ih y (fun d hd => h d (by simp [hd]))]
    simp

theorem dropWhile_append_all {α : Type} {p : α → Bool} :
    ∀ {x : List α} (y : List α), (∀ c ∈ x, p c) →
      (x ++ y).dropWhile p = y.dropWhile p := by
  intro x
  induction x with
  | nil => intro y h; simp
  | cons c cs ih =>
    intro y h
    have hc : p c := h c (by simp)
    simp only [List.cons_append, List.dropWhile_cons, hc]
    exact ih y (fun d hd => h d (by simp [hd]))

theorem osSplit_append (a b : List Char) (hb : '/' ∉ b) (ha0 : a ≠ [])
    (ha1 : a.getLast? ≠ some '/') :
    osSplit (a ++ '/' :: b) = (a, b) := by
  have hb' : ∀ c ∈ b.reverse, (fun c => decide (c ≠ '/')) c = true := by
    intro c hc
    simp only [decide_eq_true_eq]
    intro hcc
    subst hcc
    exact hb (List.mem_reverse.mp hc)
  have hrev : (a ++ '/' :: b).reverse = b.reverse ++ '/' :: a.reverse := by simp
  have hX : (a ++ '/' :: b).reverse.dropWhile (fun c => c ≠ '/') = '/' :: a.reverse := by
    rw [hrev, dropWhile_append_all _ hb']
    simp [List.dropWhile_cons]
  have hT : (a ++ '/' :: b).reverse.takeWhile (fun c => c ≠ '/') = b.reverse := by
    rw [hrev, takeWhile_append_all _ hb']
    simp [List.takeWhile_cons]
  have hS : (('/' :: a.reverse).dropWhile (fun c => c = '/')) = a.reverse := by
    rw [List.dropWhile_cons]
    simp only [decide_True, if_true]
    cases hc : a.reverse with
    | nil => simp
    | cons c cs =>
      have hlast : a.getLast? = some c := by
        rw [← List.head?_reverse, hc]
        rfl
      have hcne : ¬ (c = '/') := fun hcc => ha1 (by rw [hlast, hcc])
      simp [List.dropWhile_cons, hcne]
  simp only [osSplit, hX, hT, hS, List.reverse_reverse]
  rw [if_neg]
  intro hcond
  exact ha0 (by simpa using congrArg List.reverse hcond.1)

theorem osJoin_sep (a b : List Char) (hbh : b.head? ≠ some '/')
    (ha0 : a ≠ []) (ha1 : a.getLast? ≠ some '/') :
    osJoin a b = a ++ '/' :: b := by
  unfold osJoin
  rw [if_neg hbh, if_neg]
  simp [ha0, ha1]

theorem osJoin_getLast (a b : List Char) (hb0 : b ≠ []) :
    (osJoin a b).getLast? = b.getLast? := by
  rcases hx : b.getLast? with _ | x
  · exact absurd (List.getLast?_eq_none_iff.mp hx) hb0
  · unfold osJoin
    split
    · exact hx
    · split
      · simp [List.getLast?_append, hx]
      · cases b with
        | nil => exact absurd rfl hb0
        | cons c cs =>
          simp [List.getLast?_append, hx]

theorem osJoin_ne_nil (a b : List Char) (hb0 : b ≠ []) : osJoin a b ≠ [] := by
  unfold osJoin
  split
  · exact hb0
  · split
    · simp [hb0]
    · simp

/-- C6: the movie path returned by the rendering step is a file inside the
per-trajectory output directory, and its file name is formed from the base
name and the index qualifier (plus the `.gif` extension): splitting the
returned path recovers exactly the output directory and that name. -/
theorem movie_path_inside_output_dir (trj_fn base ind suf : List Char)
    (hbase0 : base ≠ []) (hbase : '/' ∉ base) (hind : '/' ∉ ind) (hsuf : '/' ∉ suf) :
    osSplit (movieFnOf trj_fn base ind suf) =
      (trjDirOf trj_fn base ind suf, base ++ ind ++ ['.', 'g', 'i', 'f']) := by
  have hgif : ('/' : Char) ∉ (['.', 'g', 'i', 'f'] : List Char) := by decide
  have hnm : '/' ∉ base ++ ind ++ ['.', 'g', 'i', 'f'] := by
    intro hmem
    rcases List.mem_append.mp hmem with h | h
    · rcases List.mem_append.mp h with h2 | h2
      · exact hbase h2
      · exact hind h2
    · exact hgif h
  have hnm'0 : base ++ suf ++ ind ≠ [] := by
    intro h
    exact hbase0 (List.append_eq_nil.mp (List.append_eq_nil.mp h).1).1
  have hnm' : '/' ∉ base ++ suf ++ ind := by
    intro hmem
    rcases List.mem_append.mp hmem with h | h
    · rcases List.mem_append.mp h with h2 | h2
      · exact hbase h2
      · exact hsuf h2
    · exact hind h
  have hD0 : trjDirOf trj_fn base ind suf ≠ [] := by
    unfold trjDirOf
    exact osJoin_ne_nil _ _ hnm'0
  have hDlast : (trjDirOf trj_fn base ind suf).getLast? ≠ some '/' := by
    unfold trjDirOf
    rw [osJoin_getLast _ _ hnm'0]
    intro hsome
    exact hnm' (List.mem_of_mem_getLast? hsome)
  have hnmHead : (base ++ ind ++ ['.', 'g', 'i', 'f']).head? ≠ some '/' := by
    cases base with
    | nil => exact absurd rfl hbase0
    | cons c bs =>
      simp only [List.cons_append, List.head?_cons]
      intro h
      rw [Option.some.injEq] at h
      subst h
      exact hbase (by simp)
  have hjoin : movieFnOf trj_fn base ind suf =
      trjDirOf trj_fn base ind suf ++ '/' :: (base ++ ind ++ ['.', 'g', 'i', 'f']) := by
    unfold movieFnOf
    exact osJoin_sep _ _ hnmHead hD0 hDlast
  rw [hjoin]
  exact osSplit_append _ _ hnm hD0 hDlast

/-- Concrete trajectory path for witnesses. -/
def wtrj : List Char := ("sub/run1.hess.v002.trj").data

/-- Concrete directory-name suffix for witnesses. -/
def wsuf : List Char := ("_run1-hess").data

/-- C6 witness at concrete inputs. -/
theorem movie_path_inside_output_dir_witness :
    osSplit (movieFnOf wtrj imgvibBase (natToChars 2) wsuf) =
      (trjDirOf wtrj imgvibBase (natToChars 2) wsuf,
       imgvibBase ++ natToChars 2 ++ ['.', 'g', 'i', 'f']) :=
  movie_path_inside_output_dir wtrj imgvibBase (natToChars 2) wsuf
    (by decide) (by decide) (by decide) (by decide)

/-- C8: when the per-trajectory output directory already exists, the raw
`os.mkdir` does raise `FileExistsError`, but the guarded rendering step
swallows it, leaves the directory state unchanged and still returns the
movie path — so re-running against pre-existing output directories
succeeds. -/
theorem rerun_with_existing_dir_succeeds (dirs : List (List Char))
    (trj_fn movie_base_fn trj_ind trj_dir_suf : List Char)
    (h : trjDirOf trj_fn movie_base_fn trj_ind trj_dir_suf ∈ dirs) :
    (∃ e, mkdirRaw dirs (trjDirOf trj_fn movie_base_fn trj_ind trj_dir_suf) =
      Except.error e) ∧
    movie_from_trajectory dirs trj_fn movie_base_fn trj_ind trj_dir_suf =
      (dirs, movieFnOf trj_fn movie_base_fn trj_ind trj_dir_suf) := by
  constructor
  · refine ⟨['F', 'E', 'E', 'x'], ?_⟩
    simp [mkdirRaw, h]
  · simp [movie_from_trajectory, ensureDir, mkdirRaw, h]

/-- C8 witness: with the output directory already present, the step
returns without error and reuses it. -/
theorem rerun_with_existing_dir_succeeds_witness :
    (∃ e, mkdirRaw [trjDirOf wtrj imgvibBase (natToChars 2) wsuf]
      (trjDirOf wtrj imgvibBase (natToChars 2) wsuf) = Except.error e) ∧
    movie_from_trajectory [trjDirOf wtrj imgvibBase (natToChars 2) wsuf]
        wtrj imgvibBase (natToChars 2) wsuf =
      ([trjDirOf wtrj imgvibBase (natToChars 2) wsuf],
       movieFnOf wtrj imgvibBase (natToChars 2) wsuf) :=
  rerun_with_existing_dir_succeeds _ _ _ _ _ (List.mem_cons_self _ _)

/-! ### Claims about the report ordering -/

theorem natInsert_perm (x : List Char) : ∀ l, (natInsert x l).Perm (x :: l) := by
  intro l
  induction l with
  | nil => simp [natInsert]
  | cons y ys ih =>
    by_cases h : natLt y x
    · simp only [natInsert, h, if_true]
      exact (ih.cons y).trans (List.Perm.swap x y ys)
    · simp [natInsert, h]

theorem natsorted_perm : ∀ l, (natsorted l).Perm l := by
  intro l
  induction l with
  | nil => simp [natsorted]
  | cons x xs ih =>
    exact (natInsert_perm x (natsorted xs)).trans (ih.cons x)

theorem lookup_eq_of_mem_nodup {β : Type} : ∀ (d : List (List Char × β)) (k : List Char)
    (rs : β), (k, rs) ∈ d → (d.map Prod.fst).Nodup → d.lookup k = some rs := by
  intro d
  induction d with
  | nil => intro k rs h; simp at h
  | cons e es ih =>
    intro k rs hmem hnd
    cases e with
    | mk k1 v1 =>
      rcases List.mem_cons.mp hmem with h | h
      · have hk : k = k1 := congrArg Prod.fst h
        have hv : rs = v1 := congrArg Prod.snd h
        subst hk
        subst hv
        simp [List.lookup]
      · have hk : k ∈ es.map Prod.fst := List.mem_map.mpr ⟨(k, rs), h, rfl⟩
        have hnd' : (k1 :: es.map Prod.fst).Nodup := by
          rw [List.map_cons] at hnd
          exact hnd
        have hne : k ≠ k1 := by
          intro hkk
          subst hkk
          exact (List.nodup_cons.mp hnd').1 hk
        have hbeq : (k == k1) = false := by simp [hne]
        simp only [List.lookup]
        rw [hbeq]
        exact ih k rs h (List.nodup_cons.mp hnd').2

/-- C5: the report iterates artifact paths in natural alphanumeric order —
on names `run2.out`, `run10.out`, `run1.out` the order is
`run1.out, run2.out, run10.out` — and, for a mapping with distinct artifact
paths, each artifact keeps exactly its own record list, in the order
given. -/
theorem report_natural_order_preserves_records :
    natsorted [("run2.out").data, ("run10.out").data, ("run1.out").data] =
      [("run1.out").data, ("run2.out").data, ("run10.out").data] ∧
    ∀ (d : List (List Char × List ImgVib)) (k : List Char) (rs : List ImgVib),
      (k, rs) ∈ d → (d.map Prod.fst).Nodup → (k, rs) ∈ create_imgvib_report d := by
  constructor
  · decide
  · intro d k rs hmem hnd
    unfold create_imgvib_report
    have hk : k ∈ natsorted (d.map Prod.fst) :=
      (natsorted_perm _).mem_iff.mpr (List.mem_map.mpr ⟨(k, rs), hmem, rfl⟩)
    have hl : d.lookup k = some rs := lookup_eq_of_mem_nodup d k rs hmem hnd
    refine List.mem_map.mpr ⟨k, hk, ?_⟩
    rw [hl]
    rfl

/-- C5 witness: a two-artifact mapping named `run2.out` and `run1.out`
keeps each record list at its own artifact in the naturally ordered
report. -/
theorem report_natural_order_preserves_records_witness :
    natsorted [("run2.out").data, ("run10.out").data, ("run1.out").data] =
      [("run1.out").data, ("run2.out").data, ("run10.out").data] ∧
    ((("run1.out").data, [(⟨wfn, 0, mkRat (-1) 2, wma⟩ : ImgVib)]) ∈
      create_imgvib_report
        [(("run2.out").data, [⟨wfn, 6, mkRat (-5) 1, wmb⟩]),
         (("run1.out").data, [⟨wfn, 0, mkRat (-1) 2, wma⟩])]) := by
  refine ⟨report_natural_order_preserves_records.1, ?_⟩
  exact report_natural_order_preserves_records.2 _ _ _ (by simp) (by decide)

/-! ### The announcement scan and its per-line reading (C4) -/

/-- Capture of one line: the text after the first `creating: ` occurrence,
when non-empty (the regex requires at least one captured character). -/
def lineCapture : List Char → Option (List Char)
  | [] => none
  | c :: cs =>
    if startsWith creatingLit (c :: cs) then
      if (c :: cs).drop creatingLit.length = [] then lineCapture cs
      else some ((c :: cs).drop creatingLit.length)
    else lineCapture cs

/-- The newline-terminated lines of a string: all `splitNl` segments except
the trailing unterminated one. -/
def completeLines (l : List Char) : List (List Char) := (splitNl l).dropLast

/-- Specification-side reading of the trajectory announcements: the
captures of the newline-terminated lines, in print order. -/
def creatingLines (l : List Char) : List (List Char) :=
  (completeLines l).filterMap lineCapture

theorem splitNl_ne_nil : ∀ l : List Char, splitNl l ≠ [] := by
  intro l
  cases l with
  | nil => simp [splitNl]
  | cons c cs =>
    by_cases hc : c = '\n'
    · simp [splitNl, hc]
    · simp only [splitNl, hc, if_false]
      rcases hs : splitNl cs with _ | ⟨s, ss⟩
      · simp
      · simp

theorem splitNl_no_nl : ∀ l : List Char, '\n' ∉ l → splitNl l = [l] := by
  intro l
  induction l with
  | nil => intro h; rfl
  | cons c cs ih =>
    intro h
    have hc : ¬ (c = '\n') := fun hcc => h (by simp [hcc])
    have hcs : '\n' ∉ cs := fun hm => h (by simp [hm])
    simp only [splitNl, hc, if_false, ih hcs]

theorem splitNl_append : ∀ (a b : List Char), '\n' ∉ a →
    splitNl (a ++ '\n' :: b) = a :: splitNl b := by
  intro a
  induction a with
  | nil => intro b h; simp [splitNl]
  | cons c cs ih =>
    intro b h
    have hc : ¬ (c = '\n') := fun hcc => h (by simp [hcc])
    have hcs : '\n' ∉ cs := fun hm => h (by simp [hm])
    simp only [List.cons_append, splitNl, hc, if_false]
    rw [List.append_eq, ih b hcs]

theorem takeToNl_no_nl : ∀ l : List Char, '\n' ∉ l → takeToNl l = none := by
  intro l
  induction l with
  | nil => intro h; rfl
  | cons c cs ih =>
    intro h
    have hc : ¬ (c = '\n') := fun hcc => h (by simp [hcc])
    have hcs : '\n' ∉ cs := fun hm => h (by simp [hm])
    simp only [takeToNl, hc, if_false, ih hcs]

theorem takeToNl_append : ∀ (a b : List Char), '\n' ∉ a →
    takeToNl (a ++ '\n' :: b) = some (a, b) := by
  intro a
  induction a with
  | nil => intro b h; simp [takeToNl]
  | cons c cs ih =>
    intro b h
    have hc : ¬ (c = '\n') := fun hcc => h (by simp [hcc])
    have hcs : '\n' ∉ cs := fun hm => h (by simp [hm])
    simp only [List.cons_append, takeToNl, hc, if_false]
    rw [List.append_eq, ih b hcs]

theorem takeToNl_some : ∀ (l a b : List Char), takeToNl l = some (a, b) →
    l = a ++ '\n' :: b ∧ '\n' ∉ a := by
  intro l
  induction l with
  | nil => intro a b h; simp [takeToNl] at h
  | cons c cs ih =>
    intro a b h
    simp only [takeToNl] at h
    by_cases hc : c = '\n'
    · rw [if_pos hc] at h
      simp only [Option.some.injEq, Prod.mk.injEq] at h
      obtain ⟨h1, h2⟩ := h
      subst h1
      subst h2
      subst hc
      exact ⟨rfl, by simp⟩
    · rw [if_neg hc] at h
      rcases hp : takeToNl cs with _ | p
      · rw [hp] at h
        simp at h
      · rw [hp] at h
        simp only [Option.some.injEq, Prod.mk.injEq] at h
        obtain ⟨h1, h2⟩ := h
        obtain ⟨hdec, hnm⟩ := ih p.1 p.2 (by rw [hp])
        subst h2
        constructor
        · rw [← h1, hdec]
          rfl
        · rw [← h1]
          intro hm
          rcases List.mem_cons.mp hm with hm | hm
          · exact hc hm.symm
          · exact hnm hm

theorem startsWith_append_of : ∀ (p x y : List Char), startsWith p x = true →
    startsWith p (x ++ y) = true := by
  intro p
  induction p with
  | nil => intro x y h; rfl
  | cons q qs ih =>
    intro x y h
    cases x with
    | nil => simp [startsWith] at h
    | cons c cs =>
      simp only [startsWith, Bool.and_eq_true, decide_eq_true_eq] at h ⊢
      exact ⟨h.1, ih cs y h.2⟩

theorem startsWith_drop : ∀ (p l : List Char), startsWith p l = true →
    l = p ++ l.drop p.length := by
  intro p
  induction p with
  | nil => intro l h; rfl
  | cons q qs ih =>
    intro l h
    cases l with
    | nil => simp [startsWith] at h
    | cons c cs =>
      simp only [startsWith, Bool.and_eq_true, decide_eq_true_eq] at h
      obtain ⟨h1, h2⟩ := h
      subst h1
      simpa using ih cs h2

theorem startsWith_append_nl : ∀ (p x y : List Char), '\n' ∉ p → '\n' ∉ x →
    startsWith p (x ++ '\n' :: y) = true →
    startsWith p x = true ∧ p.length ≤ x.length := by
  intro p
  induction p with
  | nil => intro x y hp hx h; exact ⟨rfl, by simp⟩
  | cons q qs ih =>
    intro x y hp hx h
    cases x with
    | nil =>
      simp only [List.nil_append, startsWith, Bool.and_eq_true, decide_eq_true_eq] at h
      exact absurd (by simp [h.1]) hp
    | cons c cs =>
      simp only [List.cons_append, startsWith, Bool.and_eq_true, decide_eq_true_eq] at h ⊢
      have hqs : '\n' ∉ qs := fun hm => hp (by simp [hm])
      have hcs : '\n' ∉ cs := fun hm => hx (by simp [hm])
      obtain ⟨h1, h2⟩ := ih cs y hqs hcs h.2
      refine ⟨⟨h.1, h1⟩, ?_⟩
      simpa using h2

theorem findallF_nil : ∀ fuel, findallCreatingF fuel [] = [] := by
  intro fuel
  cases fuel <;> rfl

theorem findallF_fuel : ∀ (fuel fuel2 : ℕ) (l : List Char), l.length ≤ fuel →
    l.length ≤ fuel2 → findallCreatingF fuel l = findallCreatingF fuel2 l := by
  intro fuel
  induction fuel with
  | zero =>
    intro fuel2 l h1 h2
    have hl : l = [] := List.length_eq_zero.mp (Nat.le_zero.mp h1)
    subst hl
    rw [findallF_nil, findallF_nil]
  | succ f ih =>
    intro fuel2 l h1 h2
    cases l with
    | nil => rw [findallF_nil, findallF_nil]
    | cons c cs =>
      cases fuel2 with
      | zero => simp at h2
      | succ f2 =>
        have hcs : cs.length ≤ f := by
          simp only [List.length_cons] at h1
          omega
        have hcs2 : cs.length ≤ f2 := by
          simp only [List.length_cons] at h2
          omega
        simp only [findallCreatingF]
        by_cases hst : startsWith creatingLit (c :: cs) = true
        · rw [if_pos hst, if_pos hst]
          rcases hp : takeToNl ((c :: cs).drop creatingLit.length) with _ | p
          · exact ih f2 cs hcs hcs2
          · have hlt := takeToNl_length _ _ _ hp
            simp only [List.length_drop, List.length_cons] at hlt
            dsimp only
            by_cases hcap : p.1 = []
            · rw [if_pos hcap, if_pos hcap]
              exact ih f2 cs hcs hcs2
            · rw [if_neg hcap, if_neg hcap]
              rw [ih f2 p.2 (by omega) (by omega)]
        · rw [if_neg hst, if_neg hst]
          exact ih f2 cs hcs hcs2

theorem findallF_no_nl : ∀ (fuel : ℕ) (l : List Char), '\n' ∉ l →
    findallCreatingF fuel l = [] := by
  intro fuel
  induction fuel with
  | zero => intro l h; cases l <;> rfl
  | succ f ih =>
    intro l h
    cases l with
    | nil => rfl
    | cons c cs =>
      have hcs : '\n' ∉ cs := fun hm => h (by simp [hm])
      have hdrop : '\n' ∉ (c :: cs).drop creatingLit.length :=
        fun hm => h (List.drop_subset _ _ hm)
      simp only [findallCreatingF]
      by_cases hst : startsWith creatingLit (c :: cs) = true
      · rw [if_pos hst, takeToNl_no_nl _ hdrop]
        exact ih cs hcs
      · rw [if_neg hst]
        exact ih cs hcs

theorem takeToNl_none : ∀ l : List Char, takeToNl l = none → '\n' ∉ l := by
  intro l
  induction l with
  | nil => intro h hm; simp at hm
  | cons c cs ih =>
    intro h hm
    simp only [takeToNl] at h
    by_cases hc : c = '\n'
    · rw [if_pos hc] at h
      simp at h
    · rw [if_neg hc] at h
      rcases hp : takeToNl cs with _ | p
      · rcases List.mem_cons.mp hm with hm | hm
        · exact hc hm.symm
        · exact ih hp hm
      · rw [hp] at h
        simp at h

theorem lineCapture_cons (c : Char) (cs : List Char) :
    lineCapture (c :: cs) =
      if startsWith creatingLit (c :: cs) = true then
        (if (c :: cs).drop creatingLit.length = [] then lineCapture cs
         else some ((c :: cs).drop creatingLit.length))
      else lineCapture cs := rfl

/-- Scanning a newline-terminated line followed by the rest of the output:
the scan emits the line's capture (when any) and then scans the rest. -/
theorem findallCreating_append_line : ∀ (a b : List Char), '\n' ∉ a →
    findallCreating (a ++ '\n' :: b) =
      (match lineCapture a with
       | some cap => cap :: findallCreating b
       | none => findallCreating b) := by
  intro a
  induction a with
  | nil =>
    intro b h
    unfold findallCreating
    simp only [List.nil_append, List.length_cons]
    simp only [findallCreatingF]
    rw [if_neg (by simp [startsWith, creatingLit])]
    rfl
  | cons c cs ih =>
    intro b h
    have hc : ¬ (c = '\n') := fun hcc => h (by simp [hcc])
    have hcs : '\n' ∉ cs := fun hm => h (by simp [hm])
    unfold findallCreating
    rw [List.cons_append, List.length_cons]
    simp only [findallCreatingF]
    by_cases hst : startsWith creatingLit (c :: (cs ++ '\n' :: b)) = true
    · have hst' : startsWith creatingLit ((c :: cs) ++ '\n' :: b) = true := by
        rw [List.cons_append]
        exact hst
      obtain ⟨hstx, hlen⟩ :=
        startsWith_append_nl creatingLit (c :: cs) b (by decide) h hst'
      have hdrop : (c :: (cs ++ '\n' :: b)).drop creatingLit.length =
          ((c :: cs).drop creatingLit.length) ++ '\n' :: b := by
        rw [← List.cons_append]
        exact List.drop_append_of_le_length hlen
      have hnodrp : '\n' ∉ (c :: cs).drop creatingLit.length :=
        fun hm => h (List.drop_subset _ _ hm)
      rw [if_pos hst, hdrop, takeToNl_append _ _ hnodrp]
      dsimp only
      by_cases hcap : (c :: cs).drop creatingLit.length = []
      · rw [if_pos hcap]
        have hrec : findallCreatingF (cs ++ '\n' :: b).length (cs ++ '\n' :: b) =
            findallCreating (cs ++ '\n' :: b) := rfl
        rw [hrec, ih b hcs]
        rw [lineCapture_cons, if_pos hstx, if_pos hcap]
        rfl
      · rw [if_neg hcap]
        have hfuel : findallCreatingF (cs ++ '\n' :: b).length b =
            findallCreating b := by
          apply findallF_fuel
          · simp only [List.length_append, List.length_cons]
            omega
          · exact le_refl _
        rw [hfuel]
        rw [lineCapture_cons, if_pos hstx, if_neg hcap]
        rfl
    · have hstx : ¬ startsWith creatingLit (c :: cs) = true := by
        intro hx
        exact hst (by rw [← List.cons_append]; exact startsWith_append_of _ _ _ hx)
      rw [if_neg hst]
      have hrec : findallCreatingF (cs ++ '\n' :: b).length (cs ++ '\n' :: b) =
          findallCreating (cs ++ '\n' :: b) := rfl
      rw [hrec, ih b hcs]
      rw [lineCapture_cons, if_neg hstx]
      rfl

/-- C4 core: the regex scan of the tool's standard output returns exactly
the per-line `creating: ` captures of the newline-terminated lines, in
print order. -/
theorem findallCreating_eq_creatingLines :
    ∀ l : List Char, findallCreating l = creatingLines l := by
  have H : ∀ (n : ℕ) (l : List Char), l.length ≤ n →
      findallCreating l = creatingLines l := by
    intro n
    induction n with
    | zero =>
      intro l h
      have hl : l = [] := List.length_eq_zero.mp (Nat.le_zero.mp h)
      subst hl
      rfl
    | succ n ih =>
      intro l hlen
      rcases htk : takeToNl l with _ | p
      · have hnl : '\n' ∉ l := takeToNl_none l htk
        unfold findallCreating
        rw [findallF_no_nl _ _ hnl]
        unfold creatingLines completeLines
        rw [splitNl_no_nl _ hnl]
        rfl
      · obtain ⟨hdec, hna⟩ := takeToNl_some l p.1 p.2 (by rw [htk])
        have hblen : p.2.length ≤ n := by
          have := takeToNl_length _ _ _ htk
          omega
        subst hdec
        rw [findallCreating_append_line p.1 p.2 hna]
        unfold creatingLines completeLines
        rw [splitNl_append p.1 p.2 hna]
        rcases hs : splitNl p.2 with _ | ⟨s, ss⟩
        · exact absurd hs (splitNl_ne_nil p.2)
        · rw [List.dropLast_cons₂, List.filterMap_cons, ← hs]
          have hb : findallCreating p.2 = creatingLines p.2 := ih p.2 hblen
          unfold creatingLines completeLines at hb
          rcases hlc : lineCapture p.1 with _ | cap
          · dsimp only
            rw [hb]
          · dsimp only
            rw [hb]
  exact fun l => H l.length l (le_refl _)

theorem splitWsAux_token : ∀ (t acc r : List Char), (∀ c ∈ t, ¬ isPySpace c) →
    splitWsAux acc (t ++ r) = splitWsAux (t.reverse ++ acc) r := by
  intro t
  induction t with
  | nil => intro acc r h; simp
  | cons c cs ih =>
    intro acc r h
    have hc : ¬ isPySpace c = true := h c (by simp)
    simp only [List.cons_append, splitWsAux]
    rw [if_neg hc, List.append_eq, ih (c :: acc) r (fun d hd => h d (by simp [hd]))]
    have harg : cs.reverse ++ c :: acc = (c :: cs).reverse ++ acc := by
      simp
    rw [harg]

theorem splitWsAux_final (t : List Char) (h0 : t ≠ []) (h : ∀ c ∈ t, ¬ isPySpace c) :
    splitWsAux [] t = [t] := by
  have ht := splitWsAux_token t [] [] h
  rw [List.append_nil, List.append_nil] at ht
  rw [ht]
  have hr : ¬ (t.reverse = []) := by simpa using h0
  simp [splitWsAux, hr]

theorem splitWsAux_space (acc r : List Char) :
    splitWsAux acc (' ' :: r) =
      if acc = [] then splitWsAux [] r else acc.reverse :: splitWsAux [] r := by
  simp [splitWsAux, isPySpace]

theorem pySplitWs_joinSp : ∀ (ts : List (List Char)),
    (∀ t ∈ ts, t ≠ [] ∧ ∀ c ∈ t, ¬ isPySpace c) →
    splitWsAux [] (joinSp ts) = ts := by
  intro ts
  induction ts with
  | nil => intro h; rfl
  | cons x xs ih =>
    intro h
    cases xs with
    | nil => exact splitWsAux_final x (h x (by simp)).1 (h x (by simp)).2
    | cons y ys =>
      have hx := h x (by simp)
      rw [show joinSp (x :: y :: ys) = x ++ ' ' :: joinSp (y :: ys) from rfl]
      rw [splitWsAux_token x [] _ hx.2, List.append_nil, splitWsAux_space]
      rw [if_neg (by simpa using hx.1), List.reverse_reverse]
      rw [ih (fun t ht => h t (by simp [ht]))]

theorem natToCharsF_digits : ∀ (fuel n : ℕ), ∀ c ∈ natToCharsF fuel n, isDig c = true := by
  intro fuel
  induction fuel with
  | zero => intro n c hc; simp [natToCharsF] at hc
  | succ f ih =>
    intro n c hc
    simp only [natToCharsF] at hc
    by_cases hn : n = 0
    · rw [if_pos hn] at hc
      simp at hc
    · rw [if_neg hn] at hc
      rcases List.mem_append.mp hc with h | h
      · exact ih (n / 10) c h
      · have hceq : c = Char.ofNat (48 + n % 10) := by simpa using h
        subst hceq
        have hm : n % 10 < 10 := Nat.mod_lt _ (by norm_num)
        revert hm
        generalize n % 10 = m
        intro hm
        interval_cases m <;> decide

theorem natToChars_digits (n : ℕ) : ∀ c ∈ natToChars n, isDig c = true := by
  intro c hc
  unfold natToChars at hc
  by_cases hn : n = 0
  · rw [if_pos hn] at hc
    have : c = '0' := by simpa using hc
    subst this
    decide
  · rw [if_neg hn] at hc
    exact natToCharsF_digits n n c hc

theorem natToChars_ne_nil (n : ℕ) : natToChars n ≠ [] := by
  unfold natToChars
  by_cases hn : n = 0
  · simp [hn]
  · rw [if_neg hn]
    cases n with
    | zero => exact absurd rfl hn
    | succ m => simp [natToCharsF]

theorem isDig_not_ws (c : Char) (h : isDig c = true) : ¬ isPySpace c = true := by
  intro hws
  simp only [isPySpace, Bool.or_eq_true, decide_eq_true_eq] at hws
  rcases hws with ((((h1 | h1) | h1) | h1) | h1) | h1 <;> subst h1 <;>
    exact absurd h (by decide)

theorem pltvibCmd_eq (fn : List Char) (idx : List ℕ) (hfn0 : fn ≠ [])
    (hfn : ∀ c ∈ fn, ¬ isPySpace c) :
    pltvibCmd fn idx = pltvibTool :: fn :: idx.map natToChars := by
  unfold pltvibCmd pySplitWs
  rw [List.append_assoc, List.cons_append]
  rw [splitWsAux_token pltvibTool [] _ (by decide), List.append_nil, splitWsAux_space]
  rw [if_neg (by decide), List.reverse_reverse]
  rw [splitWsAux_token fn [] _ hfn, List.append_nil, splitWsAux_space]
  rw [if_neg (by simpa using hfn0), List.reverse_reverse]
  rw [pySplitWs_joinSp]
  intro t ht
  obtain ⟨n, -, hn⟩ := List.mem_map.mp ht
  subst hn
  exact ⟨natToChars_ne_nil n, fun c hc => isDig_not_ws c (natToChars_digits n c hc)⟩

/-- C4: the trajectory step invokes the external tool with the artifact
path followed by the space-separated mode indices, and the paths it
returns are exactly the captures of the `creating: <path>` announcement
lines of its standard output, in the order those lines were printed. -/
theorem pltvib_invocation_and_announced_paths (fn : List Char) (idx : List ℕ)
    (stdout : List Char) (hfn0 : fn ≠ []) (hfn : ∀ c ∈ fn, ¬ isPySpace c) :
    pltvibCmd fn idx = pltvibTool :: fn :: idx.map natToChars ∧
    findallCreating stdout = creatingLines stdout :=
  ⟨pltvibCmd_eq fn idx hfn0 hfn, findallCreating_eq_creatingLines stdout⟩

/-- C4 witness at concrete inputs. -/
theorem pltvib_invocation_and_announced_paths_witness :
    pltvibCmd wfn [0, 2] = pltvibTool :: wfn :: [0, 2].map natToChars ∧
    findallCreating wout2 = creatingLines wout2 :=
  pltvib_invocation_and_announced_paths wfn [0, 2] wout2 (by decide) (by decide)

/-! ### The persisted snapshot (C9)

`save_imgvibs` writes `yaml.dump(imgvib_dict)` to `imgvibs.yaml`; the
serializer is the external YAML library and no deserializer exists in the
repository, so the snapshot format is modelled from the spec as a
structured, human-inspectable text dump with one encoder/decoder pair. -/

/-- Digits of a natural number accepted back by the decoder. -/
def parseNatChars (l : List Char) : Option ℕ :=
  if l ≠ [] ∧ l.all isDig then some (natOfDigits l) else none

/-- Signed decimal rendering of an integer. -/
def encodeInt (i : ℤ) : List Char :=
  if i < 0 then '-' :: natToChars i.natAbs else natToChars i.natAbs

/-- Decoder for `encodeInt`. -/
def parseIntChars (l : List Char) : Option ℤ :=
  if l.head? = some '-' then (parseNatChars l.tail).map (fun n => -(Int.ofNat n))
  else (parseNatChars l).map (fun n => Int.ofNat n)

/-- Rendering of a rational value as `numerator/denominator`. -/
def encodeRat (q : ℚ) : List Char := encodeInt q.num ++ '/' :: natToChars q.den

/-- Decoder for `encodeRat`. -/
def parseRatChars (l : List Char) : Option ℚ :=
  match l.dropWhile (fun c => c ≠ '/') with
  | '/' :: dp =>
    match parseIntChars (l.takeWhile (fun c => c ≠ '/')), parseNatChars dp with
    | some n, some d => some (mkRat n d)
    | _, _ => none
  | _ => none

/-- The four snapshot lines of one record: mode index, frequency value,
artifact path and movie path. -/
def encodeRec (iv : ImgVib) : List (List Char) :=
  [['-', ' '] ++ natToChars iv.index,
   'v' :: ' ' :: encodeRat iv.value,
   'f' :: ' ' :: iv.fn,
   'm' :: ' ' :: iv.movie]

/-- The snapshot lines of the whole mapping: each artifact path on its own
line, followed by the four-line blocks of its records. -/
def encodeLines (d : List (List Char × List ImgVib)) : List (List Char) :=
  (d.map (fun e => e.1 :: (e.2.map encodeRec).flatten)).flatten

/-- Join lines with newlines (no trailing newline). -/
def joinNl : List (List Char) → List Char
  | [] => []
  | [x] => x
  | x :: y :: r => x ++ '\n' :: joinNl (y :: r)

/-- Fuelled decoder for a run of record blocks; returns the records and
the remaining lines (the fuel only bounds recursion depth). -/
def decodeRecs : ℕ → List (List Char) → Option (List ImgVib × List (List Char))
  | 0, _ => none
  | _ + 1, [] => some ([], [])
  | fuel + 1, l0 :: rest =>
    if startsWith ['-', ' '] l0 = true then
      match rest with
      | l1 :: l2 :: l3 :: rest2 =>
        if startsWith ['v', ' '] l1 = true ∧ startsWith ['f', ' '] l2 = true ∧
            startsWith ['m', ' '] l3 = true then
          match parseNatChars (l0.drop 2), parseRatChars (l1.drop 2) with
          | some i, some v =>
            match decodeRecs fuel rest2 with
            | some p => some (⟨l2.drop 2, i, v, l3.drop 2⟩ :: p.1, p.2)
            | none => none
          | _, _ => none
        else none
      | _ => none
    else some ([], l0 :: rest)

/-- Fuelled decoder for the whole snapshot line list. -/
def decodeTop : ℕ → List (List Char) → Option (List (List Char × List ImgVib))
  | 0, _ => none
  | _ + 1, [] => some []
  | fuel + 1, k :: rest =>
    match decodeRecs (rest.length + 1) rest with
    | some p =>
      match decodeTop fuel p.2 with
      | some d => some ((k, p.1) :: d)
      | none => none
    | none => none

/-- Modelled from the spec: the persisted snapshot written by
`save_imgvibs` — the serializer (`yaml.dump`) is an external library, so
the durable structured-text dump of the artifact-to-records mapping is
modelled as explicit text. -/
def save_imgvibs (d : List (List Char × List ImgVib)) : List Char :=
  joinNl (encodeLines d)

/-- Modelled from the spec: deserialization of the persisted snapshot; no
deserializer exists in the repository (the snapshot is only written), so
reading the dump back into an artifact-to-records mapping is modelled
from the spec's round-trip requirement. -/
def load_imgvibs (txt : List Char) : Option (List (List Char × List ImgVib)) :=
  if txt = [] then some []
  else decodeTop ((splitNl txt).length + 1) (splitNl txt)

/-- Well-formedness of a mapping for the snapshot format: artifact paths
are non-empty, newline-free lines that cannot be mistaken for a record
line, and record string fields are newline-free. -/
def WFSnapshot (d : List (List Char × List ImgVib)) : Prop :=
  ∀ e ∈ d, (e.1 ≠ [] ∧ '\n' ∉ e.1 ∧ ¬ startsWith ['-', ' '] e.1 = true) ∧
    ∀ iv ∈ e.2, '\n' ∉ iv.fn ∧ '\n' ∉ iv.movie

theorem startsWith_self : ∀ (p r : List Char), startsWith p (p ++ r) = true := by
  intro p
  induction p with
  | nil => intro r; rfl
  | cons q qs ih =>
    intro r
    simp only [List.cons_append, startsWith, Bool.and_eq_true, decide_eq_true_eq]
    exact ⟨by simp, ih r⟩

theorem natOfDigits_append_one (xs : List Char) (c : Char) :
    natOfDigits (xs ++ [c]) = 10 * natOfDigits xs + digitVal c := by
  simp [natOfDigits, List.foldl_append]

theorem digitVal_ofNat (m : ℕ) (hm : m < 10) : digitVal (Char.ofNat (48 + m)) = m := by
  interval_cases m <;> decide

theorem natOfDigits_natToCharsF : ∀ (fuel n : ℕ), n ≤ fuel →
    natOfDigits (natToCharsF fuel n) = n := by
  intro fuel
  induction fuel with
  | zero =>
    intro n h
    have hn : n = 0 := Nat.le_zero.mp h
    subst hn
    rfl
  | succ f ih =>
    intro n h
    by_cases hn : n = 0
    · subst hn
      rfl
    · simp only [natToCharsF, if_neg hn]
      rw [natOfDigits_append_one]
      rw [ih (n / 10) (by omega)]
      rw [digitVal_ofNat (n % 10) (Nat.mod_lt _ (by norm_num))]
      omega

theorem natOfDigits_natToChars (n : ℕ) : natOfDigits (natToChars n) = n := by
  unfold natToChars
  by_cases hn : n = 0
  · subst hn
    rfl
  · rw [if_neg hn]
    exact natOfDigits_natToCharsF n n (le_refl n)

theorem parseNat_natToChars (n : ℕ) : parseNatChars (natToChars n) = some n := by
  unfold parseNatChars
  rw [if_pos]
  · rw [natOfDigits_natToChars]
  · refine ⟨natToChars_ne_nil n, ?_⟩
    rw [List.all_eq_true]
    exact natToChars_digits n

theorem natToChars_head_ne (n : ℕ) : (natToChars n).head? ≠ some '-' := by
  rcases hc : natToChars n with _ | ⟨c, cs⟩
  · simp
  · have hd : isDig c = true := natToChars_digits n c (by rw [hc]; simp)
    simp only [List.head?_cons]
    intro hcc
    injection hcc with hcc2
    subst hcc2
    exact absurd hd (by decide)

theorem intAbs_neg (i : ℤ) (hi : i < 0) : -(Int.ofNat i.natAbs) = i := by
  cases i with
  | ofNat n => exact absurd hi (Int.not_lt.mpr (Int.ofNat_nonneg n))
  | negSucc n => rfl

theorem intAbs_nonneg (i : ℤ) (hi : ¬ i < 0) : Int.ofNat i.natAbs = i := by
  cases i with
  | ofNat n => rfl
  | negSucc n => exact absurd (Int.negSucc_lt_zero n) hi

theorem parseInt_encodeInt (i : ℤ) : parseIntChars (encodeInt i) = some i := by
  unfold encodeInt parseIntChars
  by_cases hi : i < 0
  · rw [if_pos hi]
    rw [if_pos (by simp)]
    simp only [List.tail_cons, parseNat_natToChars, Option.map_some']
    rw [intAbs_neg i hi]
  · rw [if_neg hi]
    rw [if_neg (natToChars_head_ne i.natAbs)]
    rw [parseNat_natToChars]
    simp only [Option.map_some']
    rw [intAbs_nonneg i hi]

theorem encodeInt_chars (i : ℤ) : ∀ c ∈ encodeInt i, c = '-' ∨ isDig c = true := by
  intro c hc
  unfold encodeInt at hc
  by_cases hi : i < 0
  · rw [if_pos hi] at hc
    rcases List.mem_cons.mp hc with h | h
    · exact Or.inl h
    · exact Or.inr (natToChars_digits _ c h)
  · rw [if_neg hi] at hc
    exact Or.inr (natToChars_digits _ c hc)

theorem slash_not_mem_encodeInt (i : ℤ) : '/' ∉ encodeInt i := by
  intro hm
  rcases encodeInt_chars i '/' hm with h | h
  · exact absurd h (by decide)
  · exact absurd h (by decide)

theorem parseRat_encodeRat (q : ℚ) : parseRatChars (encodeRat q) = some q := by
  unfold encodeRat parseRatChars
  have hall : ∀ c ∈ encodeInt q.num, (fun c => decide (c ≠ '/')) c = true := by
    intro c hc
    simp only [decide_eq_true_eq]
    intro hcc
    subst hcc
    exact slash_not_mem_encodeInt q.num hc
  rw [dropWhile_append_all _ hall, takeWhile_append_all _ hall]
  simp only [List.dropWhile_cons, List.takeWhile_cons]
  norm_num
  rw [parseInt_encodeInt, parseNat_natToChars]
  dsimp only
  rw [Rat.mkRat_self]

theorem encodeRec_flatten_cons (iv : ImgVib) (rs : List ImgVib) :
    ((iv :: rs).map encodeRec).flatten =
      (['-', ' '] ++ natToChars iv.index) :: ('v' :: ' ' :: encodeRat iv.value) ::
      ('f' :: ' ' :: iv.fn) :: ('m' :: ' ' :: iv.movie) ::
      (rs.map encodeRec).flatten := rfl

theorem decodeRecs_encode : ∀ (rs : List ImgVib) (rest : List (List Char)) (fuel : ℕ),
    rs.length < fuel →
    (rest = [] ∨ ∃ k ks, rest = k :: ks ∧ ¬ startsWith ['-', ' '] k = true) →
    decodeRecs fuel ((rs.map encodeRec).flatten ++ rest) = some (rs, rest) := by
  intro rs
  induction rs with
  | nil =>
    intro rest fuel hf hr
    cases fuel with
    | zero => simp at hf
    | succ f =>
      simp only [List.map_nil, List.flatten_nil, List.nil_append]
      rcases hr with hr | ⟨k, ks, hr, hk⟩
      · subst hr
        rfl
      · subst hr
        simp only [decodeRecs]
        rw [if_neg hk]
  | cons iv rs' ih =>
    intro rest fuel hf hr
    cases fuel with
    | zero => simp at hf
    | succ f =>
      rw [encodeRec_flatten_cons]
      simp only [List.cons_append, List.nil_append, List.append_eq, decodeRecs]
      have hsw0 : startsWith ['-', ' '] ('-' :: ' ' :: natToChars iv.index) = true :=
        startsWith_self ['-', ' '] (natToChars iv.index)
      rw [if_pos hsw0]
      have hsw1 : startsWith ['v', ' '] ('v' :: ' ' :: encodeRat iv.value) = true :=
        startsWith_self ['v', ' '] (encodeRat iv.value)
      have hsw2 : startsWith ['f', ' '] ('f' :: ' ' :: iv.fn) = true :=
        startsWith_self ['f', ' '] iv.fn
      have hsw3 : startsWith ['m', ' '] ('m' :: ' ' :: iv.movie) = true :=
        startsWith_self ['m', ' '] iv.movie
      rw [if_pos ⟨hsw1, hsw2, hsw3⟩]
      have hd0 : List.drop 2 ('-' :: ' ' :: natToChars iv.index) = natToChars iv.index := rfl
      have hd1 : List.drop 2 ('v' :: ' ' :: encodeRat iv.value) = encodeRat iv.value := rfl
      rw [hd0, hd1, parseNat_natToChars, parseRat_encodeRat]
      dsimp only
      rw [ih rest f (by simpa using hf) hr]
      rfl

theorem blockLen : ∀ rs : List ImgVib, ((rs.map encodeRec).flatten).length = 4 * rs.length := by
  intro rs
  induction rs with
  | nil => rfl
  | cons iv rs' ih =>
    rw [encodeRec_flatten_cons]
    simp only [List.length_cons, ih]
    omega

theorem encodeLines_cons (k : List Char) (rs : List ImgVib)
    (d' : List (List Char × List ImgVib)) :
    encodeLines ((k, rs) :: d') = k :: ((rs.map encodeRec).flatten ++ encodeLines d') := rfl

theorem decodeTop_encode : ∀ (d : List (List Char × List ImgVib)) (fuel : ℕ),
    WFSnapshot d → (encodeLines d).length < fuel →
    decodeTop fuel (encodeLines d) = some d := by
  intro d
  induction d with
  | nil =>
    intro fuel h hf
    cases fuel with
    | zero => simp [encodeLines] at hf
    | succ f => rfl
  | cons e d' ih =>
    intro fuel h hf
    cases e with
    | mk k rs =>
      cases fuel with
      | zero => exact absurd hf (Nat.not_lt_zero _)
      | succ f =>
        rw [encodeLines_cons] at hf ⊢
        simp only [decodeTop]
        have hrest : encodeLines d' = [] ∨
            ∃ k2 ks, encodeLines d' = k2 :: ks ∧ ¬ startsWith ['-', ' '] k2 = true := by
          cases d' with
          | nil => exact Or.inl rfl
          | cons e2 d'' =>
            cases e2 with
            | mk k2 rs2 =>
              exact Or.inr ⟨k2, (rs2.map encodeRec).flatten ++ encodeLines d'',
                encodeLines_cons k2 rs2 d'', ((h (k2, rs2) (by simp)).1).2.2⟩
        have hlen2 : rs.length <
            ((rs.map encodeRec).flatten ++ encodeLines d').length + 1 := by
          rw [List.length_append, blockLen]
          omega
        rw [decodeRecs_encode rs (encodeLines d') _ hlen2 hrest]
        dsimp only
        have hlen3 : (encodeLines d').length < f := by
          rw [List.length_cons, List.length_append, blockLen] at hf
          omega
        rw [ih f (fun e2 he2 => h e2 (by simp [he2])) hlen3]

theorem nl_not_mem_natToChars (n : ℕ) : '\n' ∉ natToChars n := by
  intro hm
  exact absurd (natToChars_digits n _ hm) (by decide)

theorem nl_not_mem_encodeInt (i : ℤ) : '\n' ∉ encodeInt i := by
  intro hm
  rcases encodeInt_chars i _ hm with h | h
  · exact absurd h (by decide)
  · exact absurd h (by decide)

theorem nl_not_mem_encodeRat (q : ℚ) : '\n' ∉ encodeRat q := by
  intro hm
  unfold encodeRat at hm
  rcases List.mem_append.mp hm with h | h
  · exact nl_not_mem_encodeInt _ h
  · rcases List.mem_cons.mp h with h2 | h2
    · exact absurd h2 (by decide)
    · exact nl_not_mem_natToChars _ h2

theorem encodeLines_nl_free (d : List (List Char × List ImgVib)) (h : WFSnapshot d) :
    ∀ x ∈ encodeLines d, '\n' ∉ x := by
  intro x hx
  unfold encodeLines at hx
  rw [List.mem_flatten] at hx
  obtain ⟨l, hl, hxl⟩ := hx
  rw [List.mem_map] at hl
  obtain ⟨e, he, hle⟩ := hl
  subst hle
  rcases List.mem_cons.mp hxl with h1 | h1
  · subst h1
    exact ((h e he).1).2.1
  · rw [List.mem_flatten] at h1
    obtain ⟨blk, hblk, hxb⟩ := h1
    rw [List.mem_map] at hblk
    obtain ⟨iv, hiv, hbe⟩ := hblk
    subst hbe
    have hwf := (h e he).2 iv hiv
    simp only [encodeRec, List.mem_cons, List.not_mem_nil, or_false] at hxb
    rcases hxb with h2 | h2 | h2 | h2 <;> subst h2 <;> intro hm
    · rcases List.mem_append.mp hm with h3 | h3
      · exact absurd h3 (by decide)
      · exact nl_not_mem_natToChars _ h3
    · rcases List.mem_cons.mp hm with h3 | h3
      · exact absurd h3 (by decide)
      · rcases List.mem_cons.mp h3 with h4 | h4
        · exact absurd h4 (by decide)
        · exact nl_not_mem_encodeRat _ h4
    · rcases List.mem_cons.mp hm with h3 | h3
      · exact absurd h3 (by decide)
      · rcases List.mem_cons.mp h3 with h4 | h4
        · exact absurd h4 (by decide)
        · exact hwf.1 h4
    · rcases List.mem_cons.mp hm with h3 | h3
      · exact absurd h3 (by decide)
      · rcases List.mem_cons.mp h3 with h4 | h4
        · exact absurd h4 (by decide)
        · exact hwf.2 h4

theorem joinNl_eq_nil : ∀ (x : List Char) (xs : List (List Char)),
    joinNl (x :: xs) = [] → x = [] := by
  intro x xs h
  cases xs with
  | nil => exact h
  | cons y ys =>
    rw [show joinNl (x :: y :: ys) = x ++ '\n' :: joinNl (y :: ys) from rfl] at h
    exact (List.append_eq_nil.mp h).1

theorem splitNl_joinNl : ∀ (ls : List (List Char)), ls ≠ [] → (∀ x ∈ ls, '\n' ∉ x) →
    splitNl (joinNl ls) = ls := by
  intro ls
  induction ls with
  | nil => intro h; exact absurd rfl h
  | cons x xs ih =>
    intro h0 h
    cases xs with
    | nil => exact splitNl_no_nl x (h x (by simp))
    | cons y ys =>
      rw [show joinNl (x :: y :: ys) = x ++ '\n' :: joinNl (y :: ys) from rfl]
      rw [splitNl_append x _ (h x (by simp))]
      rw [ih (by simp) (fun t ht => h t (by simp [ht]))]

/-- C9: deserializing the persisted snapshot reproduces the serialized
artifact-to-records mapping field for field (artifact path, index, value,
movie path). -/
theorem snapshot_roundtrip (d : List (List Char × List ImgVib)) (h : WFSnapshot d) :
    load_imgvibs (save_imgvibs d) = some d := by
  cases d with
  | nil => rfl
  | cons e d' =>
    cases e with
    | mk k rs =>
      have hk := (h (k, rs) (by simp)).1
      have hne : encodeLines ((k, rs) :: d') ≠ [] := by
        rw [encodeLines_cons]
        simp
      have hsave : save_imgvibs ((k, rs) :: d') ≠ [] := by
        intro h0
        unfold save_imgvibs at h0
        rw [encodeLines_cons] at h0
        exact hk.1 (joinNl_eq_nil _ _ h0)
      unfold load_imgvibs
      rw [if_neg hsave]
      unfold save_imgvibs
      rw [splitNl_joinNl _ hne (encodeLines_nl_free _ h)]
      exact decodeTop_encode _ _ h (Nat.lt_succ_self _)

/-- Concrete mapping for the C9 witness. -/
def wsnap : List (List Char × List ImgVib) :=
  [(wfn, [⟨wfn, 0, mkRat (-1205) 10, wma⟩, ⟨wfn, 2, mkRat (-301) 10, wmb⟩])]

/-- C9 witness: the snapshot of a concrete two-record mapping round-trips
exactly. -/
theorem snapshot_roundtrip_witness : load_imgvibs (save_imgvibs wsnap) = some wsnap :=
  snapshot_roundtrip wsnap (by unfold WFSnapshot; decide)

end Orcatrjvis
